import Mathlib

/-!
Shallow embedding of the linear-assignment-problem (LAP) solvers of the
ASD-Prototype repository, together with theorems settling the spec claims.

Two C++ solvers are embedded:
* the Crouse shortest-augmenting-path solver
  (`Utils/LAP/CrouseSAP.h`, `solve_rectangular_linear_assignment` and
  `augmenting_path`), and
* the Jonker-Volgenant solver (`Tracking/LAP/lapjv-core.h`, `rlap` and
  `find_umins`) with its entry points (`Tracking/LAP/lapjv.cpp`).

The C++ code is templated over the cost element type (instantiated at
`float` and `double`); mirroring that, the embedding is parametric over a
linearly ordered commutative ring `α` — the algorithms use only addition,
subtraction, negation and comparisons — which models floating-point
arithmetic as exact arithmetic.  Input values are modelled by `α` extended
with the IEEE special values (`FVal α`); inside the Crouse solver, after
the up-front validation has excluded NaN and negative infinity, values are
modelled by `Option α` where `none` stands for `+INFINITY` (`EV` below).
Machine integers are modelled by `ℕ` for sizes and loop counters and by
`ℤ` for stored indices, which the source uses with the sentinel `-1`.
-/

namespace ASDLap

/-- An IEEE floating-point input value: NaN, the two infinities, or a
finite value of the (exactly modelled) element type. -/
inductive FVal (α : Type) where
  | nan : FVal α
  | ninf : FVal α
  | pinf : FVal α
  | fin : α → FVal α
deriving DecidableEq

/-- IEEE negation of a value, as performed by `temp[i] = -temp[i]` in
`solve_rectangular_linear_assignment`: negation flips the sign of the
infinities and leaves NaN a NaN. -/
def FVal.neg {α : Type} [Neg α] : FVal α → FVal α
  | .nan => .nan
  | .ninf => .pinf
  | .pinf => .ninf
  | .fin q => .fin (-q)

/-- The validation test of `solve_rectangular_linear_assignment`
(`costMatrix[i] != costMatrix[i] || costMatrix[i] == -INFINITY`):
true exactly on NaN (self-inequality) and on negative infinity. -/
def FVal.isBad {α : Type} : FVal α → Bool
  | .nan => true
  | .ninf => true
  | .pinf => false
  | .fin _ => false

/-- Extended cost values: the domain used inside the Crouse solver after
validation, `none` standing for `+INFINITY`.  NaN and `-INFINITY` cannot
occur there because the solver rejects them before solving. -/
abbrev EV (α : Type) := Option α

/-- View a validated input value in the solver's cost domain.  The NaN and
`-INFINITY` cases are unreachable behind the validation check; they are
mapped to `none` only to make the function total. -/
def FVal.toE {α : Type} : FVal α → EV α
  | .fin q => some q
  | _ => none

section Solvers

variable {α : Type} [LinearOrderedCommRing α]

/-- Strict order on extended values matching IEEE `<` on
`{finite} ∪ {+INFINITY}`: a finite value is below `+INFINITY`, and
`+INFINITY < +INFINITY` is false. -/
def eLt : EV α → EV α → Bool
  | some a, some b => decide (a < b)
  | some _, none => true
  | none, _ => false

/-- Addition of a finite value to an extended value, matching IEEE
arithmetic on `{finite} ∪ {+INFINITY}` (infinity absorbs). -/
def eAdd (x : EV α) (q : α) : EV α := x.map (· + q)

/-- Read a cost list at an index, defaulting to `0` out of range (all
in-range uses are guarded by the solver's own loop bounds). -/
def getQ (l : List α) (i : ℕ) : α := l.getD i 0

/-- Read an index list at an index, defaulting to the sentinel `-1`. -/
def getI (l : List ℤ) (i : ℕ) : ℤ := l.getD i (-1)

/-- Read an extended-value list at an index, defaulting to `+INFINITY`
(the value the list is initialised with). -/
def getE (l : List (EV α)) (i : ℕ) : EV α := l.getD i none

/-- Extract the finite value of an extended value; used only where the
solver has already established finiteness (scanned rows and columns). -/
def fromE (x : EV α) : α := x.getD 0

/-- Read a boolean list at an index, defaulting to `false`. -/
def getB (l : List Bool) (i : ℕ) : Bool := l.getD i false

/-- Swap-removal on the `remaining` vector:
`remaining[index] = remaining[--num_remaining]` followed by shrinking the
live prefix by one. -/
def swapRem (l : List ℕ) (idx : ℕ) : List ℕ :=
  (l.set idx (l.getD (l.length - 1) 0)).take (l.length - 1)

/-! ## Crouse solver: `augmenting_path` -/

/-- The scratch state of `augmenting_path` that the caller reads back:
`path`, `shortestPathCosts`, `SR` and `SC`. -/
structure APScr (α : Type) where
  path : List ℤ
  spc : List (EV α)
  SR : List Bool
  SC : List Bool
deriving DecidableEq

/-- Outcome of `augmenting_path`: either the infeasible signal
(`return -1`, with `*p_minVal` left unset) or a sink column with the final
`minVal`. -/
inductive APOut (α : Type) where
  | infeasible : APScr α → APOut α
  | found : ℕ → α → APScr α → APOut α
deriving DecidableEq

/-- One pass of the inner scan of `augmenting_path` over the live
`remaining` entries (`for (it = 0; it < num_remaining; it++)`), updating
`shortestPathCosts`/`path` and accumulating the running minimum `lowest`
together with its position `index` in `remaining`.  On ties the scan
prefers (that is, keeps moving `index` to) columns that are unassigned
(`row4col[j] == -1`). -/
def scanRem (nc : ℕ) (wc : ℕ → EV α) (i : ℕ) (ui : α) (v : List α)
    (row4col : List ℤ) (minVal : α) :
    List ℕ → ℕ → (List (EV α) × List ℤ × EV α × ℤ) →
    List (EV α) × List ℤ × EV α × ℤ
  | [], _, st => st
  | j :: rest, it, (spc, path, lowest, index) =>
      let r : EV α := eAdd (wc (i * nc + j)) (minVal - ui - getQ v j)
      let spc' := if eLt r (getE spc j) then spc.set j r else spc
      let path' := if eLt r (getE spc j) then path.set j (i : ℤ) else path
      let pick : Bool :=
        eLt (getE spc' j) lowest ||
          (decide (getE spc' j = lowest) && decide (getI row4col j = -1))
      let lowest' := if pick then getE spc' j else lowest
      let index' := if pick then (it : ℤ) else index
      scanRem nc wc i ui v row4col minVal rest (it + 1) (spc', path', lowest', index')

/-- The `while (sink == -1)` loop of `augmenting_path`.  The fuel is one
more than the length of `remaining`: every iteration that neither returns
the infeasible signal nor finds a sink removes one live element, and with
no live element left the scan leaves `lowest` at `+INFINITY`, which is the
infeasible exit.  The fuel-zero branch is therefore unreachable and
mirrors the infeasible exit. -/
def augLoop (nc : ℕ) (wc : ℕ → EV α) (u v : List α) (row4col : List ℤ) :
    ℕ → ℕ → α → List ℕ → APScr α → APOut α
  | 0, _, _, _, scr => .infeasible scr
  | fuel + 1, i, minVal, remaining, scr =>
      let SR' := scr.SR.set i true
      let (spc, path, lowest, index) :=
        scanRem nc wc i (getQ u i) v row4col minVal remaining 0
          (scr.spc, scr.path, none, (-1 : ℤ))
      match lowest with
      | none => .infeasible ⟨path, spc, SR', scr.SC⟩
      | some mv =>
          let idx := index.toNat
          let j := remaining.getD idx 0
          let SC' := scr.SC.set j true
          if getI row4col j = -1 then
            .found j mv ⟨path, spc, SR', SC'⟩
          else
            augLoop nc wc u v row4col fuel (getI row4col j).toNat mv
              (swapRem remaining idx) ⟨path, spc, SR', SC'⟩

/-- The function `augmenting_path` of `CrouseSAP.h`: reset the scratch
state (`SR`, `SC`, `shortestPathCosts`; `path` persists across calls),
fill `remaining` with all columns in descending order, and run the search
loop from row `i`. -/
def augmenting_path (nr nc : ℕ) (wc : ℕ → EV α) (u v : List α)
    (row4col : List ℤ) (pathPrev : List ℤ) (i : ℕ) : APOut α :=
  augLoop nc wc u v row4col (nc + 1) i 0 ((List.range nc).reverse)
    ⟨pathPrev, List.replicate nc none, List.replicate nr false,
      List.replicate nc false⟩

/-! ## Crouse solver: `solve_rectangular_linear_assignment` -/

/-- The dual update after a successful `augmenting_path` call:
`u[curRow] += minVal`; `u[i] += minVal - shortestPathCosts[col4row[i]]`
for every other scanned row; `v[j] -= minVal - shortestPathCosts[j]` for
every scanned column.  The scanned rows and columns always carry finite
shortest path costs, so `fromE` extracts the genuine value there. -/
def updDuals (nr nc curRow : ℕ) (mv : α) (scr : APScr α) (col4row : List ℤ)
    (u v : List α) : List α × List α :=
  let u1 := u.set curRow (getQ u curRow + mv)
  let u2 := (List.range nr).foldl
    (fun acc i =>
      if getB scr.SR i && decide (i ≠ curRow) then
        acc.set i (getQ acc i + (mv - fromE (getE scr.spc (getI col4row i).toNat)))
      else acc) u1
  let v2 := (List.range nc).foldl
    (fun acc j =>
      if getB scr.SC j then
        acc.set j (getQ acc j - (mv - fromE (getE scr.spc j)))
      else acc) v
  (u2, v2)

/-- The augmentation walk at the end of each `solve` iteration:
starting from the sink column `j`, repeatedly set `row4col[j] = path[j]`,
swap `col4row[path[j]]` with `j`, and stop when the walk reaches `curRow`.
The walk visits pairwise distinct columns, so fuel `nc + 1` always
suffices; the fuel-zero branch is unreachable. -/
def augWalk (path : List ℤ) (curRow : ℕ) :
    ℕ → ℕ → List ℤ → List ℤ → List ℤ × List ℤ
  | 0, _, row4col, col4row => (row4col, col4row)
  | fuel + 1, j, row4col, col4row =>
      let i := getI path j
      let row4col' := row4col.set j i
      let jNew := getI col4row i.toNat
      let col4row' := col4row.set i.toNat (j : ℤ)
      if i = (curRow : ℤ) then (row4col', col4row')
      else augWalk path curRow fuel jNew.toNat row4col' col4row'

/-- The mutable state of the main loop of
`solve_rectangular_linear_assignment`. -/
structure SolState (α : Type) where
  u : List α
  v : List α
  path : List ℤ
  col4row : List ℤ
  row4col : List ℤ
deriving DecidableEq

/-- The main loop `for (curRow = 0; curRow < nr; curRow++)` of
`solve_rectangular_linear_assignment`: run `augmenting_path`, return the
infeasible signal (`none`) if it fails, otherwise update the duals and
augment the current matching. -/
def solveLoop (nr nc : ℕ) (wc : ℕ → EV α) :
    List ℕ → SolState α → Option (SolState α)
  | [], st => some st
  | curRow :: rest, st =>
      match augmenting_path nr nc wc st.u st.v st.row4col st.path curRow with
      | .infeasible _ => none
      | .found sink mv scr =>
          let (u', v') := updDuals nr nc curRow mv scr st.col4row st.u st.v
          let (row4col', col4row') :=
            augWalk scr.path curRow (nc + 1) sink st.row4col st.col4row
          solveLoop nr nc wc rest ⟨u', v', scr.path, col4row', row4col'⟩

/-- The part of `solve_rectangular_linear_assignment` the caller observes:
the returned status (`0`, `-1` for `RECTANGULAR_LSAP_INFEASIBLE`, `-2` for
`RECTANGULAR_LSAP_INVALID`) and the contents written to the output buffers
`a`, `b` — `none` when the function returns without writing them at
all. -/
structure SolveOut where
  status : ℤ
  writes : Option (List ℤ × List ℤ)
deriving DecidableEq, Repr

/-- The working cost matrix read by the solver after the optional
transpose (`temp[j*nr+i] = costMatrix[i*nc+j]` when `nc < nr`) and the
optional negation for maximisation, as a function of the flat working
index. -/
def workEntry (nr nc : ℕ) (cost : ℕ → FVal α) (maximize : Bool) :
    ℕ → FVal α :=
  fun k =>
    let base := if nc < nr then cost ((k % nr) * nc + k / nr) else cost k
    if maximize then base.neg else base

/-- The up-front validation loop of `solve_rectangular_linear_assignment`:
does any of the `nr * nc` working entries fail the NaN / `-INFINITY`
test? -/
def hasBad (n : ℕ) (work : ℕ → FVal α) : Bool :=
  (List.range n).any fun k => (work k).isBad

/-- Comparator-based argsort used on the transposed path
(`argsort_iter`): indices `0 .. n-1` sorted by their `col4row` values.  In
every reachable use the keys are pairwise distinct (a matching assigns
distinct columns), so the sorted order is unique and stability is
irrelevant. -/
def argsortIdx (l : List ℤ) : List ℕ :=
  (List.range l.length).mergeSort fun x y => decide (getI l x ≤ getI l y)

/-- The function `solve_rectangular_linear_assignment` of `CrouseSAP.h`:
trivial-success exit for an empty dimension, transpose and negate as
required, validate, run the main loop and write the assignment back (via
`argsort_iter` on the transposed path). -/
def solve_rectangular_linear_assignment (nr nc : ℕ) (cost : ℕ → FVal α)
    (maximize : Bool) : SolveOut :=
  if nr = 0 ∨ nc = 0 then ⟨0, none⟩
  else
    let transpose := nc < nr
    let nr' := if transpose then nc else nr
    let nc' := if transpose then nr else nc
    let work := workEntry nr nc cost maximize
    if hasBad (nr' * nc') work then ⟨-2, none⟩
    else
      let wc : ℕ → EV α := fun k => (work k).toE
      let st0 : SolState α :=
        ⟨List.replicate nr' 0, List.replicate nc' 0,
          List.replicate nc' (-1), List.replicate nr' (-1),
          List.replicate nc' (-1)⟩
      match solveLoop nr' nc' wc (List.range nr') st0 with
      | none => ⟨-1, none⟩
      | some st =>
          if transpose then
            let order := argsortIdx st.col4row
            ⟨0, some (order.map (fun k => getI st.col4row k),
                      order.map (fun (k : ℕ) => (k : ℤ)))⟩
          else
            ⟨0, some ((List.range nr').map (fun (i : ℕ) => (i : ℤ)),
                      (List.range nr').map (fun i => getI st.col4row i))⟩

/-! ## Jonker-Volgenant solver: `lapjv-core.h`

The JV solver works on plain floating-point costs with no validity check.
`std::numeric_limits<cost>::max()`, used to initialise the second minimum
in `find_umins`, is for `double` the exact integer `(2^53 - 1) * 2^971`,
which exists in any ordered ring. -/

/-- The exact value of `std::numeric_limits<double>::max()`. -/
def dblMax : α := (((2 ^ 53 - 1) * 2 ^ 971 : ℕ) : α)

/-- The function `find_umins` of `lapjv-core.h`: minimum and second
minimum of the reduced costs `cost[i][j] - v[j]` over the columns of row
`i`, with their column indices (`j2 = -1` until a second minimum is
seen). -/
def find_umins (dim : ℕ) (i : ℕ) (cost : ℕ → α) (v : List α) :
    α × α × ℤ × ℤ :=
  (List.range (dim - 1)).foldl
    (fun st k =>
      let (umin, usubmin, j1, j2) := st
      let j := k + 1
      let h := cost (i * dim + j) - getQ v j
      if h < usubmin then
        if h ≥ umin then (umin, h, j1, (j : ℤ))
        else (h, umin, (j : ℤ), j1)
      else st)
    (cost (i * dim + 0) - getQ v 0, dblMax, (0 : ℤ), (-1 : ℤ))

/-- The row/column assignment state of `rlap` together with the column
prices `v`. -/
structure JVSt (α : Type) where
  v : List α
  rowsol : List ℤ
  colsol : List ℤ
deriving DecidableEq

/-- One pass of the augmenting row reduction of `rlap` (the
`while (k < prevnumfree)` loop).  The array `free` with its read cursor
`k` and write cursor `numfree` behaves as a queue: `free[--k] = i0`
re-schedules `i0` as the next row to scan, and `free[numfree++] = i0`
appends `i0` to the list of the next phase (the write cursor never
overtakes the read cursor, so pending rows are never clobbered).
Re-scheduling can in principle repeat many times, hence the explicit
fuel; `none` reports fuel exhaustion and is never produced for the inputs
used in this development. -/
def arrPass (dim1 : ℕ) (cost : ℕ → α) :
    ℕ → List ℕ → List ℕ → JVSt α → Option (List ℕ × JVSt α)
  | 0, _, _, _ => none
  | _ + 1, [], nextFree, st => some (nextFree, st)
  | fuel + 1, i :: pending, nextFree, st =>
      let (umin, usubmin, j1, j2) := find_umins dim1 i cost st.v
      let i0 := getI st.colsol j1.toNat
      let vj1New := getQ st.v j1.toNat - (usubmin - umin)
      let lowers : Bool := decide (vj1New < getQ st.v j1.toNat)
      let v' := if lowers then st.v.set j1.toNat vj1New else st.v
      let j1' := if lowers then j1 else if i0 ≥ 0 then j2 else j1
      let i0' := if lowers then i0 else if i0 ≥ 0 then getI st.colsol j2.toNat else i0
      let rowsol' := st.rowsol.set i (j1' : ℤ)
      let colsol' := st.colsol.set j1'.toNat (i : ℤ)
      let st' : JVSt α := ⟨v', rowsol', colsol'⟩
      if i0' ≥ 0 then
        if lowers then arrPass dim1 cost fuel (i0'.toNat :: pending) nextFree st'
        else arrPass dim1 cost fuel pending (nextFree ++ [i0'.toNat]) st'
      else arrPass dim1 cost fuel pending nextFree st'

/-- State of the Dijkstra-style search of the augmentation phase of
`rlap`: distances `d`, predecessors `pred`, the column list `collist`
partitioned by the cursors `low` and `up`, the index `last` of the final
settled column, the current minimum, and the terminus once found. -/
structure DijSt (α : Type) where
  d : List α
  pred : List ℤ
  collist : List ℕ
  low : ℕ
  up : ℕ
  last : ℤ
  minv : α
  endofpath : ℕ
  found : Bool
deriving DecidableEq

/-- The rescan loop of the `up == low` branch
(`for (k = up; k < dim1; k++)`): find the new minimum among the unscanned
columns and gather all columns attaining it at the front
(`collist[k] = collist[up]; collist[up++] = j`), restarting the gathered
list whenever a strictly smaller value appears.  The state is
`(collist, up, minv)`; `low` stays fixed during the loop; the first
argument counts the remaining iterations `dim1 - k`. -/
def rescanMin (d : List α) (low : ℕ) :
    ℕ → ℕ → (List ℕ × ℕ × α) → List ℕ × ℕ × α
  | 0, _, st => st
  | left + 1, k, st =>
      let (collist, up, minv) := st
      let j := collist.getD k 0
      let h := getQ d j
      if h ≤ minv then
        let up' := if h < minv then low else up
        let minv' := if h < minv then h else minv
        let collist' := (collist.set k (collist.getD up' 0)).set up' j
        rescanMin d low left (k + 1) (collist', up' + 1, minv')
      else rescanMin d low left (k + 1) st

/-- The frontier check after a rescan
(`for (k = low; k < up; k++) if (colsol[collist[k]] < 0) ...`): the first
unassigned column of the frontier, if any. -/
def frontierFree (collist : List ℕ) (colsol : List ℤ) (low up : ℕ) :
    Option ℕ :=
  ((List.range (up - low)).map (low + ·)).findSome? fun k =>
    let j := collist.getD k 0
    if getI colsol j < 0 then some j else none

/-- The relaxation loop of the augmentation phase
(`for (k = up; k < dim1; k++)` in the `!unassigned_found` branch):
relax the distance of each unscanned column through the row `i` occupying
the just-settled column; a relaxed unassigned column whose new distance
ties the minimum ends the search at once (before `d[j]` is written), a
relaxed assigned column at the minimum joins the frontier.  The first
`ℕ` argument counts the remaining iterations `dim1 - k`. -/
def relaxLoop (cost : ℕ → α) (dim1 : ℕ) (i : ℕ) (h : α) (v : List α)
    (colsol : List ℤ) (minv : α) :
    ℕ → ℕ → (List α × List ℤ × List ℕ × ℕ × ℕ × Bool) →
    List α × List ℤ × List ℕ × ℕ × ℕ × Bool
  | 0, _, st => st
  | left + 1, k, st =>
      let (d, pred, collist, up, eop, found) := st
      let j := collist.getD k 0
      let v2 := cost (i * dim1 + j) - getQ v j - h
      if v2 < getQ d j then
        let pred' := pred.set j (i : ℤ)
        if v2 = minv then
          if getI colsol j < 0 then (d, pred', collist, up, j, true)
          else
            let collist' := (collist.set k (collist.getD up 0)).set up j
            relaxLoop cost dim1 i h v colsol minv left (k + 1)
              (d.set j v2, pred', collist', up + 1, eop, found)
        else
          relaxLoop cost dim1 i h v colsol minv left (k + 1)
            (d.set j v2, pred', collist, up, eop, found)
      else relaxLoop cost dim1 i h v colsol minv left (k + 1) st

/-- One iteration of the `do ... while (!unassigned_found)` loop of the
augmentation phase. -/
def dijStep (cost : ℕ → α) (dim1 : ℕ) (v : List α) (colsol : List ℤ)
    (st : DijSt α) : DijSt α :=
  let st1 :=
    if st.up = st.low then
      let last' : ℤ := (st.low : ℤ) - 1
      let j0 := st.collist.getD st.up 0
      let minv' := getQ st.d j0
      let (collist', up', minv'') :=
        rescanMin st.d st.low (dim1 - (st.up + 1)) (st.up + 1)
          (st.collist, st.up + 1, minv')
      match frontierFree collist' colsol st.low up' with
      | some j =>
          { st with collist := collist', up := up', last := last',
                    minv := minv'', endofpath := j, found := true }
      | none =>
          { st with collist := collist', up := up', last := last',
                    minv := minv'' }
    else st
  if st1.found then st1
  else
    let j1 := st1.collist.getD st1.low 0
    let i := (getI colsol j1).toNat
    let h := cost (i * dim1 + j1) - getQ v j1 - st1.minv
    let (d', pred', collist', up', eop', found') :=
      relaxLoop cost dim1 i h v colsol st1.minv (dim1 - st1.up) st1.up
        (st1.d, st1.pred, st1.collist, st1.up, st1.endofpath, st1.found)
    { st1 with d := d', pred := pred', collist := collist', low := st1.low + 1,
               up := up', endofpath := eop', found := found' }

/-- The `do ... while (!unassigned_found)` loop, driven by explicit fuel;
`none` reports fuel exhaustion (never produced for the inputs used in
this development, where an unassigned column is always reachable). -/
def dijLoop (cost : ℕ → α) (dim1 : ℕ) (v : List α) (colsol : List ℤ) :
    ℕ → DijSt α → Option (DijSt α)
  | 0, _ => none
  | fuel + 1, st =>
      let st' := dijStep cost dim1 v colsol st
      if st'.found then some st' else dijLoop cost dim1 v colsol fuel st'

/-- The price update after the search
(`for (k = 0; k <= last; k++) v[j1] += d[j1] - min`); no column is
updated when `last` is `-1`. -/
def updPrices (st : DijSt α) (v : List α) : List α :=
  if st.last < 0 then v
  else
    (List.range (st.last.toNat + 1)).foldl
      (fun acc k =>
        let j1 := st.collist.getD k 0
        acc.set j1 (getQ acc j1 + (getQ st.d j1 - st.minv)))
      v

/-- The alternating-path walk of the augmentation phase
(`do { i = pred[endofpath]; colsol[endofpath] = i; ... } while (i != freerow)`),
with fuel `dim1 + 1` (the walk visits pairwise distinct columns); the
fuel-zero branch is unreachable. -/
def jvWalk (pred : List ℤ) (freerow : ℕ) :
    ℕ → ℕ → List ℤ → List ℤ → List ℤ × List ℤ
  | 0, _, rowsol, colsol => (rowsol, colsol)
  | fuel + 1, eop, rowsol, colsol =>
      let i := getI pred eop
      let colsol' := colsol.set eop i
      let eop' := getI rowsol i.toNat
      let rowsol' := rowsol.set i.toNat (eop : ℤ)
      if i = (freerow : ℤ) then (rowsol', colsol')
      else jvWalk pred freerow fuel eop'.toNat rowsol' colsol'

/-- The augmentation phase of `rlap` for one free row: initialise `d`,
`pred` and `collist`, run the Dijkstra-style search, update the prices
and flip the assignments along the found path.  `none` propagates fuel
exhaustion of the search. -/
def jvAugmentRow (dim1 : ℕ) (cost : ℕ → α) (st : JVSt α) (freerow : ℕ) :
    Option (JVSt α) :=
  let d0 := (List.range dim1).map fun j => cost (freerow * dim1 + j) - getQ st.v j
  let dij0 : DijSt α :=
    ⟨d0, List.replicate dim1 (freerow : ℤ), List.range dim1, 0, 0, 0, 0, 0, false⟩
  match dijLoop cost dim1 st.v st.colsol (2 * dim1 + 2) dij0 with
  | none => none
  | some dst =>
      let v' := updPrices dst st.v
      let (rowsol', colsol') :=
        jvWalk dst.pred freerow (dim1 + 1) dst.endofpath st.rowsol st.colsol
      some ⟨v', rowsol', colsol'⟩

/-- The function `rlap` of `lapjv-core.h`.  Inputs: the two dimensions,
the cost matrix, the `verbose` flag (which only controls `printf` calls
and has no effect on the computed values), and the initial contents `v0`
of the caller-supplied column-price buffer `v` — `rlap` reads `v` in
`find_umins` before ever writing it, and its callers pass a freshly
allocated, uninitialised buffer, so those contents are an explicit input
of the model.  Output: the achieved cost, `rowsol`, `colsol`, `u` and
`v`; `none` reports fuel exhaustion of the augmenting row reduction or of
a shortest-path search. -/
def rlap (fuel : ℕ) (dim0 dim1 : ℕ) (cost : ℕ → α) (verbose : Bool)
    (v0 : List α) : Option (α × List ℤ × List ℤ × List α × List α) :=
  let _ := verbose
  let st0 : JVSt α := ⟨v0, List.replicate dim0 (-1), List.replicate dim1 (-1)⟩
  match arrPass dim1 cost fuel (List.range dim0) [] st0 with
  | none => none
  | some (free1, st1) =>
    match arrPass dim1 cost fuel free1 [] st1 with
    | none => none
    | some (free2, st2) =>
      let stFinal := free2.foldl
        (fun acc f => acc.bind fun st => jvAugmentRow dim1 cost st f)
        (some st2)
      stFinal.map fun st =>
        let u := (List.range dim0).map fun i =>
          cost (i * dim1 + (getI st.rowsol i).toNat) -
            getQ st.v (getI st.rowsol i).toNat
        let total := ((List.range dim0).map fun i =>
          cost (i * dim1 + (getI st.rowsol i).toNat)).sum
        (total, st.rowsol, st.colsol, u, st.v)

/-- The entry point `solve_lap` of `lapjv.cpp` (and, up to the element
type, `solve_lapf`): it forwards to `rlap` with the `verbose` flag set to
`false` and freshly allocated (hence uninitialised) `u` and `v` buffers,
whose indeterminate initial contents are the explicit argument `v0`.  It
exposes no maximisation flag. -/
def solve_lap (fuel : ℕ) (inputDims outputDims : ℕ) (cost : ℕ → α)
    (v0 : List α) : Option (α × List ℤ × List ℤ × List α × List α) :=
  rlap fuel inputDims outputDims cost false v0

end Solvers

/-! ## The size_t instantiation of the Crouse solver

`ASD/Tracking/LAP/RLAP.cpp` instantiates
`solve_rectangular_linear_assignment` (the copy in
`ASD/Video/Tracking/LAP/CrouseSAP.h`, identical up to template parameter
names) with `INDEX = size_t`.  The infeasible signal `return -1` of
`augmenting_path` then converts to `SIZE_MAX`, and the caller's guard
`if (sink < 0)` compares an unsigned value against zero. -/

/-- Conversion of a signed constant to `size_t` (64-bit unsigned),
as performed when `augmenting_path` returns `-1` with `INDEX = size_t`. -/
def usizeOfInt (z : ℤ) : ℕ := (z % (2 ^ 64 : ℤ)).toNat

/-- The guard `sink < 0` of `solve_rectangular_linear_assignment` when
`sink` has type `size_t`: an unsigned comparison against zero. -/
def usizeSinkCaught (s : ℕ) : Bool := decide (s < 0)

/-! ## Concrete instances used by the claims -/

/-- The cost matrix `[[4,1,3],[2,0,5],[3,2,2]]` of the spec's concrete
test case, as a flat buffer of exact integers. -/
def c2cost : ℕ → ℤ := fun k => [4, 1, 3, 2, 0, 5, 3, 2, 2].getD k 0

/-- The same matrix as floating-point input values. -/
def c2fval : ℕ → FVal ℤ := fun k => FVal.fin (c2cost k)

/-- The infeasible matrix `[[+inf, +inf], [1, 2]]` of the spec. -/
def infeas2 : ℕ → FVal ℤ := fun k =>
  [FVal.pinf, FVal.pinf, FVal.fin 1, FVal.fin 2].getD k (FVal.fin 0)

/-- The matrix `[[0,1],[1,0]]`, whose minimal assignment (cost 0) differs
from its maximal one (cost 2). -/
def swapCost : ℕ → ℤ := fun k => [0, 1, 1, 0].getD k 0

/-- The identity output `[0, 1, ..., n-1]` written by the Crouse solver
for a constant square matrix. -/
def idWrites (n : ℕ) : List ℤ := (List.range n).map fun (i : ℕ) => (i : ℤ)

/-- Characterisation of the input entries that make the Crouse solver
report `Invalid` for a given `maximize` flag: NaN always, and the
infinity whose negation under the maximise preprocessing is
`-INFINITY`. -/
def badInput {α : Type} (maximize : Bool) (x : FVal α) : Prop :=
  x = .nan ∨ x = (if maximize then .pinf else .ninf)

/-! ## Infrastructure for the constant-matrix analysis -/

/-- Repeatedly set the positions listed in `L` to `x`. -/
def setAll {β : Type} (l : List β) (L : List ℕ) (x : β) : List β :=
  L.foldl (fun s j => s.set j x) l

/-- The position, counted from `it`, of the last entry `j` of `L` with
`k ≤ j`; `idx` if there is none.  This is the value of the `index`
accumulator of `scanRem` on a constant-cost matrix in the state where `k`
rows are already matched to their own columns. -/
def lastIdx (k : ℕ) : List ℕ → ℕ → ℤ → ℤ
  | [], _, idx => idx
  | j :: rest, it, idx => lastIdx k rest (it + 1) (if k ≤ j then (it : ℤ) else idx)

/-- Row duals of the Crouse solver after `k` rows of a constant-`c`
square matrix have been processed. -/
def uConst {α : Type} [LinearOrderedCommRing α] (n k : ℕ) (c : α) : List α :=
  (List.range n).map fun i => if i < k then c else 0

/-- Partial identity assignment: the first `k` indices map to themselves,
the rest are unassigned. -/
def asgn (n k : ℕ) : List ℤ := (List.range n).map fun (i : ℕ) => if i < k then (i : ℤ) else -1

/-! ## Helper lemmas -/

section Helpers

variable {α : Type} [LinearOrderedCommRing α]

/-- The validation test holds exactly on NaN and negative infinity. -/
theorem isBad_iff (x : FVal α) : x.isBad = true ↔ x = .nan ∨ x = .ninf := by
  cases x <;> simp [FVal.isBad]

/-- After IEEE negation, the validation test holds exactly on NaN and
positive infinity. -/
theorem isBad_neg_iff (x : FVal α) : (FVal.neg x).isBad = true ↔ x = .nan ∨ x = .pinf := by
  cases x <;> simp [FVal.isBad, FVal.neg]

/-- A working entry fails validation exactly when the input entry it came
from is a bad input for the given `maximize` flag. -/
theorem workEntry_isBad_iff (nr nc : ℕ) (cost : ℕ → FVal α) (maximize : Bool) (k : ℕ) :
    ((workEntry nr nc cost maximize) k).isBad = true ↔
      badInput maximize (if nc < nr then cost ((k % nr) * nc + k / nr) else cost k) := by
  cases maximize
  · by_cases h : nc < nr <;> simp [workEntry, h, badInput, isBad_iff]
  · by_cases h : nc < nr <;> simp [workEntry, h, badInput, isBad_neg_iff]

/-- The validation loop fires exactly when a working entry in range fails
the test. -/
theorem hasBad_iff (n : ℕ) (work : ℕ → FVal α) :
    hasBad n work = true ↔ ∃ k, k < n ∧ (work k).isBad = true := by
  simp [hasBad, List.any_eq_true, List.mem_range]

/-- Flat row-major indices below `m * n` correspond to index pairs. -/
theorem exists_lt_mul_iff (m n : ℕ) (P : ℕ → Prop) :
    (∃ k, k < m * n ∧ P k) ↔ ∃ a, a < m ∧ ∃ b, b < n ∧ P (a * n + b) := by
  constructor
  · rintro ⟨k, hk, hP⟩
    have hn : 0 < n := by
      rcases Nat.eq_zero_or_pos n with h | h
      · subst h; rw [Nat.mul_zero] at hk; omega
      · exact h
    refine ⟨k / n, (Nat.div_lt_iff_lt_mul hn).2 hk, k % n, Nat.mod_lt _ hn, ?_⟩
    have hkk : k / n * n + k % n = k := by
      rw [mul_comm]; exact Nat.div_add_mod k n
    rwa [hkk]
  · rintro ⟨a, ha, b, hb, hP⟩
    have h1 : a * n + b < (a + 1) * n := by rw [Nat.succ_mul]; omega
    have h2 : (a + 1) * n ≤ m * n := Nat.mul_le_mul_right n ha
    exact ⟨a * n + b, lt_of_lt_of_le h1 h2, hP⟩

/-- Remainder of a row-major index by its stride. -/
theorem addMulMod (a b n : ℕ) (hb : b < n) : (a * n + b) % n = b := by
  rw [mul_comm, Nat.mul_add_mod, Nat.mod_eq_of_lt hb]

/-- Quotient of a row-major index by its stride. -/
theorem addMulDiv (a b n : ℕ) (hb : b < n) : (a * n + b) / n = a := by
  have hn : 0 < n := by omega
  rw [mul_comm, Nat.mul_add_div hn, Nat.div_eq_of_lt hb, Nat.add_zero]

/-- For non-empty dimensions, the Crouse solver reports `Invalid` exactly
when the validation loop fires on the working matrix. -/
theorem status_invalid_iff_hasBad (nr nc : ℕ) (cost : ℕ → FVal α) (maximize : Bool)
    (h1 : nr ≠ 0) (h2 : nc ≠ 0) :
    (solve_rectangular_linear_assignment nr nc cost maximize).status = -2 ↔
      hasBad ((if nc < nr then nc else nr) * (if nc < nr then nr else nc))
        (workEntry nr nc cost maximize) = true := by
  simp only [solve_rectangular_linear_assignment]
  rw [if_neg (by tauto)]
  by_cases hb : hasBad ((if nc < nr then nc else nr) * (if nc < nr then nr else nc))
      (workEntry nr nc cost maximize) = true
  · rw [if_pos hb]
    exact ⟨fun _ => hb, fun _ => rfl⟩
  · rw [if_neg hb, iff_false_intro hb, iff_false]
    intro h
    split at h
    · simp at h
    · split at h <;> simp at h

/-- With maximisation, the working matrix is the working matrix of the
negated input with minimisation. -/
theorem workEntry_neg (nr nc : ℕ) (cost : ℕ → FVal α) :
    workEntry nr nc cost true = workEntry nr nc (fun k => (cost k).neg) false := by
  funext k
  by_cases h : nc < nr <;> simp [workEntry, h]

/-- The Crouse solver returns one of: trivial success, success with
written outputs, the infeasible status, or the invalid status. -/
theorem solve_out_cases (nr nc : ℕ) (cost : ℕ → FVal α) (maximize : Bool) :
    solve_rectangular_linear_assignment nr nc cost maximize = ⟨0, none⟩ ∨
    (∃ ab, solve_rectangular_linear_assignment nr nc cost maximize = ⟨0, some ab⟩) ∨
    solve_rectangular_linear_assignment nr nc cost maximize = ⟨-1, none⟩ ∨
    solve_rectangular_linear_assignment nr nc cost maximize = ⟨-2, none⟩ := by
  simp only [solve_rectangular_linear_assignment]
  repeat' split
  all_goals first
    | exact Or.inl rfl
    | exact Or.inr (Or.inr (Or.inr rfl))
    | exact Or.inr (Or.inr (Or.inl rfl))
    | exact Or.inr (Or.inl ⟨_, rfl⟩)

end Helpers

/-! ## List access lemmas -/

section ListLemmas

variable {β : Type}

/-- Reading a replicated list yields the element in range and the default
out of range. -/
theorem getD_replicate (x d : β) (n i : ℕ) :
    (List.replicate n x).getD i d = if i < n then x else d := by
  rw [List.getD_eq_getElem?_getD, List.getElem?_replicate]
  split <;> rfl

/-- Reading an in-range updated position yields the written value. -/
theorem getD_set_self (l : List β) (i : ℕ) (x d : β) (h : i < l.length) :
    (l.set i x).getD i d = x := by
  rw [List.getD_eq_getElem?_getD, List.getElem?_set_eq_of_lt x h]
  rfl

/-- Reading away from an updated position is unchanged. -/
theorem getD_set_ne (l : List β) (i j : ℕ) (x d : β) (h : i ≠ j) :
    (l.set i x).getD j d = l.getD j d := by
  rw [List.getD_eq_getElem?_getD, List.getElem?_set_ne h, ← List.getD_eq_getElem?_getD]

/-- Reading a mapped range list applies the function in range. -/
theorem getD_map_range (f : ℕ → β) (n i : ℕ) (d : β) :
    ((List.range n).map f).getD i d = if i < n then f i else d := by
  rw [List.getD_eq_getElem?_getD, List.getElem?_map]
  by_cases h : i < n
  · rw [List.getElem?_range h]; simp [h]
  · rw [List.getElem?_eq_none (by simpa using h)]; simp [h]

/-- Updating one position of a mapped range list is mapping the pointwise
updated function. -/
theorem set_map_range (n k : ℕ) (f g : ℕ → β) (x : β) (hk : k < n)
    (hg : ∀ i, g i = if i = k then x else f i) :
    ((List.range n).map f).set k x = (List.range n).map g := by
  apply List.ext_getElem?
  intro i
  by_cases hik : k = i
  · subst hik
    rw [List.getElem?_set_eq_of_lt x (by simpa using hk), List.getElem?_map,
      List.getElem?_range hk]
    simp [hg]
  · rw [List.getElem?_set_ne hik, List.getElem?_map, List.getElem?_map]
    by_cases hi : i < n
    · rw [List.getElem?_range hi]
      simp [hg, Ne.symm hik]
    · rw [List.getElem?_eq_none (by simpa using hi)]
      rfl

/-- Writing a position its own current value is the identity. -/
theorem set_getD_self (l : List β) (i : ℕ) (d : β) (h : i < l.length) :
    l.set i (l.getD i d) = l := by
  apply List.ext_getElem?
  intro j
  by_cases hij : i = j
  · subst hij
    rw [List.getElem?_set_eq_of_lt _ h, List.getD_eq_getElem?_getD,
      List.getElem?_eq_getElem h]
    rfl
  · rw [List.getElem?_set_ne hij]

/-- A fold whose body fixes every accumulator is the identity. -/
theorem foldl_eq_init (f : β → ℕ → β) :
    ∀ (l : List ℕ) (b : β), (∀ acc x, x ∈ l → f acc x = acc) → l.foldl f b = b
  | [], b, _ => rfl
  | x :: l, b, h => by
      rw [List.foldl_cons, h b x (List.mem_cons_self x l)]
      exact foldl_eq_init f l b fun acc y hy => h acc y (List.mem_cons_of_mem x hy)

/-- Reading the reversed range list: position `p` holds `n - 1 - p`. -/
theorem revRange_getD (n p : ℕ) (h : p < n) :
    ((List.range n).reverse).getD p 0 = n - 1 - p := by
  rw [List.getD_eq_getElem?_getD, List.getElem?_reverse (by simpa using h),
    List.length_range, List.getElem?_range (by omega)]
  rfl

/-- Dropping up to an in-range updated position exposes the written
value. -/
theorem drop_set_cons (l : List β) (m : ℕ) (x : β) (h : m < l.length) :
    (l.set m x).drop m = x :: l.drop (m + 1) := by
  rw [List.set_eq_take_append_cons_drop, if_pos h]
  have hlen : (List.take m l).length = m := by simp [List.length_take]; omega
  rw [List.drop_left' hlen]

/-- Unfolding `setAll` over a cons cell. -/
theorem setAll_cons (l : List β) (j : ℕ) (L : List ℕ) (x : β) :
    setAll l (j :: L) x = setAll (l.set j x) L x := rfl

/-- Setting all positions of the reversed range overwrites the prefix. -/
theorem setAll_revRange (x : β) :
    ∀ (m : ℕ) (l : List β), m ≤ l.length →
      setAll l ((List.range m).reverse) x = List.replicate m x ++ l.drop m
  | 0, l, _ => by simp [setAll]
  | m + 1, l, h => by
      rw [List.range_succ, List.reverse_append, List.reverse_singleton,
        List.singleton_append, setAll_cons,
        setAll_revRange x m (l.set m x) (by simp; omega),
        drop_set_cons l m x (by omega)]
      rw [List.replicate_succ' m x, List.append_assoc]
      rfl

/-- Setting all positions of a full-length reversed range yields a
replicated list. -/
theorem setAll_revRange_full (x : β) (n : ℕ) (l : List β) (h : l.length = n) :
    setAll l ((List.range n).reverse) x = List.replicate n x := by
  rw [setAll_revRange x n l (by omega), List.drop_eq_nil_of_le (by omega),
    List.append_nil]

/-- The `index` accumulator over a reversed range: the last position whose
column is at least `k`. -/
theorem lastIdx_revRange (k : ℕ) :
    ∀ (m : ℕ) (it : ℕ) (idx : ℤ),
      lastIdx k ((List.range m).reverse) it idx =
        if k < m then ((it + (m - 1 - k) : ℕ) : ℤ) else idx
  | 0, it, idx => by simp [lastIdx]
  | m + 1, it, idx => by
      rw [List.range_succ, List.reverse_append, List.reverse_singleton,
        List.singleton_append]
      show lastIdx k ((List.range m).reverse) (it + 1) (if k ≤ m then (it : ℤ) else idx) = _
      rw [lastIdx_revRange k m (it + 1) _]
      by_cases h1 : k < m
      · rw [if_pos h1, if_pos (by omega)]
        congr 1
        omega
      · rw [if_neg h1]
        by_cases h2 : k ≤ m
        · rw [if_pos h2, if_pos (by omega)]
          congr 1
          omega
        · rw [if_neg h2, if_neg (by omega)]

end ListLemmas

/-! ## The Crouse solver on a constant square matrix -/

section ConstMatrix

variable {α : Type} [LinearOrderedCommRing α]

/-- Reading the zero vector gives zero. -/
theorem getQ_replicate_zero (n j : ℕ) : getQ (List.replicate n (0:α)) j = 0 := by
  simp [getQ, getD_replicate]

/-- Reading the partial identity assignment in range. -/
theorem getI_asgn (n k j : ℕ) (hj : j < n) :
    getI (asgn n k) j = if j < k then (j : ℤ) else -1 := by
  simp [getI, asgn, getD_map_range, hj]

/-- A column is unassigned in the partial identity assignment exactly when
its index is at least `k`. -/
theorem getI_asgn_eq_sentinel (n k j : ℕ) (hj : j < n) :
    (getI (asgn n k) j = -1) ↔ k ≤ j := by
  rw [getI_asgn n k j hj]
  by_cases h : j < k
  · rw [if_pos h]
    constructor
    · intro hc; exfalso; omega
    · intro hc; omega
  · rw [if_neg h]
    constructor
    · intro _; omega
    · intro _; rfl

/-- A finite value is below `+INFINITY`. -/
theorem eLt_some_none (a : α) : eLt (some a) (none : EV α) = true := rfl

/-- `+INFINITY` is below nothing. -/
theorem eLt_none_any (x : EV α) : eLt (none : EV α) x = false := rfl

/-- The finite-value comparison case of `eLt`. -/
theorem eLt_some_some (a b : α) : eLt (some a) (some b) = decide (a < b) := rfl

/-- Reading a list of unset shortest-path costs gives `+INFINITY`. -/
theorem getE_replicate_none (n j : ℕ) :
    getE (List.replicate n (none : EV α)) j = none := by
  simp [getE, getD_replicate]

/-- The reversed range peels off its largest element. -/
theorem revRange_succ (m : ℕ) :
    (List.range (m + 1)).reverse = m :: (List.range m).reverse := by
  rw [List.range_succ, List.reverse_append]
  rfl

/-- The dual of the row about to be processed is still zero. -/
theorem getQ_uConst_self (n k : ℕ) (c : α) (h : k < n) :
    getQ (uConst n k c) k = 0 := by
  simp [getQ, uConst, getD_map_range, h]

/-- The inner scan of `augmenting_path` on the constant matrix, in the
state reached after `k` rows: every scanned column receives shortest-path
cost `c` and predecessor `k`, the minimum is `c`, and the chosen position
is the last one holding an unassigned column. -/
theorem scanRem_const (n k : ℕ) (c : α) :
    ∀ (L : List ℕ) (it : ℕ) (spc : List (EV α)) (path : List ℤ) (index : ℤ),
      L.Nodup → (∀ j ∈ L, j < n) → (∀ j ∈ L, getE spc j = none) →
      spc.length = n → path.length = n →
      scanRem n (fun _ => (some c : EV α)) k 0 (List.replicate n 0) (asgn n k) 0 L it
        (spc, path, some c, index) =
      (setAll spc L (some c), setAll path L ((k : ℤ)) , some c, lastIdx k L it index)
  | [], it, spc, path, index, _, _, _, _, _ => rfl
  | j :: L, it, spc, path, index, hnd, hlt, hnone, hsl, hpl => by
      have hjn : j < n := hlt j (List.mem_cons_self j L)
      have hspcj : getE spc j = none := hnone j (List.mem_cons_self j L)
      have hr : eAdd ((some c : EV α)) ((0:α) - 0 - getQ (List.replicate n (0:α)) j)
          = some c := by
        simp [eAdd, getQ_replicate_zero]
      have hlt1 : eLt (some c) (getE spc j) = true := by rw [hspcj]; rfl
      have hset : getE (spc.set j (some c)) j = some c := by
        simp only [getE]
        exact getD_set_self spc j (some c) none (by omega)
      have hstep :
          scanRem n (fun _ => (some c : EV α)) k 0 (List.replicate n 0) (asgn n k) 0
            (j :: L) it (spc, path, some c, index) =
          scanRem n (fun _ => (some c : EV α)) k 0 (List.replicate n 0) (asgn n k) 0
            L (it + 1) (spc.set j (some c), path.set j (k : ℤ), some c,
              if k ≤ j then (it : ℤ) else index) := by
        simp only [scanRem, hr, hlt1, if_true, hset]
        by_cases hj : k ≤ j
        · have hI : getI (asgn n k) j = -1 := (getI_asgn_eq_sentinel n k j hjn).2 hj
          simp [hI, eLt, lt_irrefl, hj]
        · have hI : ¬ (getI (asgn n k) j = -1) := by
            rw [getI_asgn_eq_sentinel n k j hjn]; exact hj
          simp [hI, eLt, lt_irrefl, hj]
      rw [hstep,
        scanRem_const n k c L (it + 1) (spc.set j (some c)) (path.set j (k : ℤ))
          (if k ≤ j then (it : ℤ) else index)
          (List.Nodup.of_cons hnd)
          (fun x hx => hlt x (List.mem_cons_of_mem j hx))
          (fun x hx => by
            have hxj : x ≠ j := by
              intro he; subst he
              exact (List.nodup_cons.1 hnd).1 hx
            rw [show getE (spc.set j (some c)) x = getE spc x from by
              simp only [getE]; exact getD_set_ne spc j x (some c) none (Ne.symm hxj)]
            exact hnone x (List.mem_cons_of_mem j hx))
          (by simpa using hsl) (by simpa using hpl)]
      rfl

/-- `augmenting_path` on the constant matrix in the state reached after
`k` rows: it finds the sink `k` at cost `c` in a single pass, scanning
only row `k` and marking only column `k`. -/
theorem augPath_const (n k : ℕ) (c : α) (hkn : k < n) (path : List ℤ)
    (hp : path.length = n) :
    augmenting_path n n (fun _ => (some c : EV α)) (uConst n k c)
      (List.replicate n 0) (asgn n k) path k =
      .found k c ⟨List.replicate n (k : ℤ), List.replicate n (some c),
        (List.replicate n false).set k true, (List.replicate n false).set k true⟩ := by
  obtain ⟨m, rfl⟩ : ∃ m, n = m + 1 := ⟨n - 1, by omega⟩
  simp only [augmenting_path]
  have hr : eAdd ((some c : EV α)) ((0:α) - 0 - getQ (List.replicate (m+1) (0:α)) m)
      = some c := by
    simp [eAdd, getQ_replicate_zero]
  have hset : getE ((List.replicate (m+1) (none : EV α)).set m (some c)) m = some c := by
    simp only [getE]
    exact getD_set_self _ m (some c) none (by simp)
  have hstep0 :
      scanRem (m+1) (fun _ => (some c : EV α)) k 0 (List.replicate (m+1) 0)
        (asgn (m+1) k) 0 (m :: (List.range m).reverse) 0
        (List.replicate (m+1) (none : EV α), path, none, (-1 : ℤ)) =
      scanRem (m+1) (fun _ => (some c : EV α)) k 0 (List.replicate (m+1) 0)
        (asgn (m+1) k) 0 ((List.range m).reverse) 1
        ((List.replicate (m+1) (none : EV α)).set m (some c), path.set m (k : ℤ),
          some c, 0) := by
    simp only [scanRem, hr, getE_replicate_none, eLt_some_none, if_true, hset,
      Bool.true_or]
    rfl
  have hscan :
      scanRem (m+1) (fun _ => (some c : EV α)) k 0 (List.replicate (m+1) 0)
        (asgn (m+1) k) 0 ((List.range m).reverse) 1
        ((List.replicate (m+1) (none : EV α)).set m (some c), path.set m (k : ℤ),
          some c, 0) =
      (setAll ((List.replicate (m+1) (none : EV α)).set m (some c))
          ((List.range m).reverse) (some c),
        setAll (path.set m (k : ℤ)) ((List.range m).reverse) (k : ℤ),
        some c, lastIdx k ((List.range m).reverse) 1 0) := by
    refine scanRem_const (m+1) k c ((List.range m).reverse) 1 _ _ 0
      (List.nodup_reverse.2 (List.nodup_range m)) ?_ ?_ (by simp) (by simp [hp])
    · intro x hx
      have : x < m := List.mem_range.1 (List.mem_reverse.1 hx)
      omega
    · intro x hx
      have hxm : x < m := List.mem_range.1 (List.mem_reverse.1 hx)
      rw [show getE ((List.replicate (m+1) (none : EV α)).set m (some c)) x
            = getE (List.replicate (m+1) (none : EV α)) x from by
          simp only [getE]; exact getD_set_ne _ m x (some c) none (by omega)]
      exact getE_replicate_none (m+1) x
  have hsetAllSpc :
      setAll ((List.replicate (m+1) (none : EV α)).set m (some c))
        ((List.range m).reverse) (some c) = List.replicate (m+1) (some c) := by
    rw [← setAll_cons, ← revRange_succ]
    exact setAll_revRange_full (some c) (m+1) _ (by simp)
  have hsetAllPath :
      setAll (path.set m (k : ℤ)) ((List.range m).reverse) (k : ℤ)
        = List.replicate (m+1) (k : ℤ) := by
    rw [← setAll_cons, ← revRange_succ]
    exact setAll_revRange_full (k : ℤ) (m+1) _ (by simp [hp])
  have hlast : lastIdx k ((List.range m).reverse) 1 0 = ((m - k : ℕ) : ℤ) := by
    rw [lastIdx_revRange]
    by_cases h : k < m
    · rw [if_pos h]
      congr 1
      omega
    · rw [if_neg h]
      have hmk : m - k = 0 := by omega
      rw [hmk]
      rfl
  have hgetrem : (m :: (List.range m).reverse).getD (m - k) 0 = k := by
    rw [← revRange_succ m, revRange_getD (m+1) (m - k) (by omega)]
    omega
  have hsent : getI (asgn (m+1) k) k = -1 :=
    (getI_asgn_eq_sentinel (m+1) k k hkn).2 (le_refl k)
  simp only [augLoop, revRange_succ m, getQ_uConst_self (m+1) k c hkn, hstep0, hscan,
    hsetAllSpc, hsetAllPath, hlast, Int.toNat_natCast, hgetrem, hsent]
  simp

/-- Writing its own index back to the row about to be matched extends the
partial identity assignment. -/
theorem asgn_set_succ (n k : ℕ) (hk : k < n) :
    (asgn n k).set k (k : ℤ) = asgn n (k + 1) := by
  refine set_map_range n k _ _ (k : ℤ) hk (fun i => ?_)
  by_cases h1 : i = k
  · subst h1; simp
  · by_cases h2 : i < k <;> by_cases h3 : i < k + 1 <;> simp [h1, h2, h3] <;> omega

/-- Raising the dual of the newly matched row extends the constant dual
vector. -/
theorem uConst_set_succ (n k : ℕ) (c : α) (hk : k < n) :
    (uConst n k c).set k (getQ (uConst n k c) k + c) = uConst n (k + 1) c := by
  rw [getQ_uConst_self n k c hk]
  refine set_map_range n k _ _ (0 + c) hk (fun i => ?_)
  by_cases h1 : i = k
  · subst h1; simp
  · by_cases h2 : i < k <;> by_cases h3 : i < k + 1 <;> simp [h1, h2, h3] <;> omega

/-- Writing a position its own value via `getQ` is the identity. -/
theorem set_getQ_self (l : List α) (j : ℕ) : l.set j (getQ l j) = l := by
  by_cases h : j < l.length
  · exact set_getD_self l j 0 h
  · exact List.set_eq_of_length_le (by omega)

/-- The dual update after matching row `k` of the constant matrix: only
`u[k]` rises by `c`, and the column prices stay zero. -/
theorem updDuals_const (n k : ℕ) (c : α) (hk : k < n) :
    updDuals n n k c
      ⟨List.replicate n (k : ℤ), List.replicate n (some c),
        (List.replicate n false).set k true, (List.replicate n false).set k true⟩
      (asgn n k) (uConst n k c) (List.replicate n 0) =
      (uConst n (k + 1) c, List.replicate n 0) := by
  simp only [updDuals]
  refine congrArg₂ Prod.mk ?_ ?_
  · have hid : ∀ (acc : List α) (x : ℕ), x ∈ List.range n →
        (if (getB ((List.replicate n false).set k true) x && decide (x ≠ k)) = true then
          acc.set x (getQ acc x +
            (c - fromE (getE (List.replicate n (some c)) (getI (asgn n k) x).toNat)))
        else acc) = acc := by
      intro acc x _
      by_cases hxk : x = k
      · subst hxk
        simp
      · have hB : getB ((List.replicate n false).set k true) x = false := by
          simp only [getB]
          rw [getD_set_ne _ k x true false (Ne.symm hxk), getD_replicate]
          split <;> rfl
        simp [hB]
    rw [foldl_eq_init _ (List.range n) _ hid]
    exact uConst_set_succ n k c hk
  · have hid : ∀ (acc : List α) (x : ℕ), x ∈ List.range n →
        (if getB ((List.replicate n false).set k true) x = true then
          acc.set x (getQ acc x - (c - fromE (getE (List.replicate n (some c)) x)))
        else acc) = acc := by
      intro acc x hx
      have hxn : x < n := List.mem_range.1 hx
      have hE : getE (List.replicate n (some c)) x = some c := by
        simp [getE, getD_replicate, hxn]
      rw [hE]
      simp only [fromE, Option.getD_some, sub_self, sub_zero]
      split
      · exact set_getQ_self _ x
      · rfl
    exact foldl_eq_init _ (List.range n) _ hid

/-- The augmentation walk after matching row `k` of the constant matrix is
a single step assigning column `k` to row `k`. -/
theorem augWalk_const (n k : ℕ) (hk : k < n) :
    augWalk (List.replicate n (k : ℤ)) k (n + 1) k (asgn n k) (asgn n k) =
      (asgn n (k + 1), asgn n (k + 1)) := by
  have hi : getI (List.replicate n (k : ℤ)) k = (k : ℤ) := by
    simp [getI, getD_replicate, hk]
  simp only [augWalk, hi, Int.toNat_natCast, if_pos, asgn_set_succ n k hk]

/-- One iteration of the main loop of the Crouse solver on a constant
matrix: row `k` is matched to column `k`. -/
theorem solveLoop_const_step (n k : ℕ) (c : α) (hkn : k < n) (path : List ℤ)
    (hp : path.length = n) (rest : List ℕ) :
    solveLoop n n (fun _ => (some c : EV α)) (k :: rest)
      ⟨uConst n k c, List.replicate n 0, path, asgn n k, asgn n k⟩ =
    solveLoop n n (fun _ => (some c : EV α)) rest
      ⟨uConst n (k + 1) c, List.replicate n 0, List.replicate n (k : ℤ),
        asgn n (k + 1), asgn n (k + 1)⟩ := by
  simp only [solveLoop, augPath_const n k c hkn path hp, updDuals_const n k c hkn,
    augWalk_const n k hkn]

/-- The main loop of the Crouse solver on a constant matrix yields the
identity matching. -/
theorem solveLoop_const (n : ℕ) (c : α) :
    ∀ (m k : ℕ) (path : List ℤ), n - k = m → k ≤ n → path.length = n →
    ∃ st', solveLoop n n (fun _ => (some c : EV α)) (List.range' k m)
      ⟨uConst n k c, List.replicate n 0, path, asgn n k, asgn n k⟩ = some st' ∧
      st'.col4row = asgn n n
  | 0, k, path, hm, hk, _ => by
      have hkn : k = n := by omega
      subst hkn
      exact ⟨_, rfl, rfl⟩
  | m + 1, k, path, hm, hk, hp => by
      have hkn : k < n := by omega
      rw [List.range'_succ, solveLoop_const_step n k c hkn path hp]
      exact solveLoop_const n c m (k + 1) (List.replicate n (k : ℤ)) (by omega)
        (by omega) (by simp)

/-- The constant dual vector starts at zero. -/
theorem uConst_zero (n : ℕ) (c : α) : uConst n 0 c = List.replicate n 0 := by
  apply List.ext_getElem?
  intro i
  by_cases h : i < n
  · rw [show uConst n 0 c = (List.range n).map (fun i => if i < 0 then c else 0) from rfl,
      List.getElem?_map, List.getElem?_range h, List.getElem?_replicate, if_pos h]
    simp
  · rw [List.getElem?_eq_none (l := List.replicate n 0) (by simpa using h),
      List.getElem?_eq_none (by simp [uConst]; omega)]

/-- The empty partial assignment is the all-sentinel vector. -/
theorem asgn_zero (n : ℕ) : asgn n 0 = List.replicate n (-1 : ℤ) := by
  apply List.ext_getElem?
  intro i
  by_cases h : i < n
  · rw [show asgn n 0 =
        (List.range n).map (fun (i : ℕ) => if i < 0 then (i : ℤ) else -1) from rfl,
      List.getElem?_map, List.getElem?_range h, List.getElem?_replicate, if_pos h]
    simp
  · rw [List.getElem?_eq_none (l := List.replicate n (-1 : ℤ)) (by simpa using h),
      List.getElem?_eq_none (by simp [asgn]; omega)]

end ConstMatrix

/-! ## Theorems settling the claims -/

set_option maxRecDepth 100000 in
/-- Claim C2: on the cost matrix `[[4,1,3],[2,0,5],[3,2,2]]` with
minimisation, the Jonker-Volgenant solver returns total cost `5` with
`rowsol = [1,0,2]` and `colsol = [1,0,2]` (row 0 to column 1, row 1 to
column 0, row 2 to column 2), and the Crouse solver returns status `0`
with `a = [0,1,2]` and `b = [1,0,2]`.  The JV run is taken with the
column-price buffer zero-initialised (the entry point `solve_lap` passes
that buffer uninitialised). -/
theorem claim_C2_concrete_case :
    (rlap 100 3 3 c2cost false (List.replicate 3 0)).map
      (fun r => (r.1, r.2.1, r.2.2.1)) = some (5, [1, 0, 2], [1, 0, 2]) ∧
    solve_rectangular_linear_assignment 3 3 c2fval false =
      ⟨0, some ([0, 1, 2], [1, 0, 2])⟩ := by
  decide

/-- Claim C4 (evidence): on the valid but infeasible matrix
`[[+inf,+inf],[1,2]]` the `int`-indexed Crouse solver returns the
infeasible status `-1`; but in the `size_t` instantiation the same signal
`-1` converts to `2^64 - 1`, and the guard `sink < 0` — an unsigned
comparison — is false on it, so the infeasible exit is never taken
there. -/
theorem claim_C4_infeasible_evidence :
    solve_rectangular_linear_assignment 2 2 infeas2 false = ⟨-1, none⟩ ∧
    usizeOfInt (-1) = 2 ^ 64 - 1 ∧
    usizeSinkCaught (usizeOfInt (-1)) = false := by
  decide

/-- Claim C3 (counterexample): with `maximize = true`, a `1x1` matrix
whose single entry is `+INFINITY` is reported `Invalid` (`-2`) — the
validation runs on the negated working copy — although the claim says a
`+INFINITY` entry alone never causes `Invalid`; and a `1x1` matrix whose
single entry is `-INFINITY` is NOT reported `Invalid` (it yields
`Infeasible`, `-1`), although the claim says a `-INFINITY` entry always
is. -/
theorem claim_C3_counterexample :
    solve_rectangular_linear_assignment 1 1 (fun _ => (FVal.pinf : FVal ℤ)) true =
      ⟨-2, none⟩ ∧
    solve_rectangular_linear_assignment 1 1 (fun _ => (FVal.ninf : FVal ℤ)) true =
      ⟨-1, none⟩ := by
  decide

set_option maxRecDepth 100000 in
/-- Claim C6 (counterexample): on the constant 4x4 matrix (every entry
`1`) the Jonker-Volgenant solver — with the column-price buffer
zero-initialised — produces `rowsol = [0, 3, 1, 2]`, not the identity
assignment. -/
theorem claim_C6_counterexample :
    (rlap 100 4 4 (fun _ => (1 : ℤ)) false (List.replicate 4 0)).map
      (fun r => r.2.1) = some [0, 3, 1, 2] ∧
    ([0, 3, 1, 2] : List ℤ) ≠ [0, 1, 2, 3] := by
  decide

set_option maxRecDepth 100000 in
/-- Claim C9 (counterexample): on `[[0,1],[1,0]]` the value computed by
`rlap` does not depend on its boolean parameter (it is the `verbose`
flag), and with the boolean set to `true` the returned total cost is `0`,
the minimum — not `2`, the cost of the alternative (maximal) assignment,
whose value the last conjunct exhibits.  So no boolean of these entry
points requests maximisation. -/
theorem claim_C9_counterexample :
    rlap 100 2 2 swapCost true (List.replicate 2 0) =
      rlap 100 2 2 swapCost false (List.replicate 2 0) ∧
    (rlap 100 2 2 swapCost true (List.replicate 2 0)).map (fun r => r.1) =
      some 0 ∧
    swapCost 1 + swapCost 2 = 2 := by
  decide

section ClaimTheorems

variable {α : Type} [LinearOrderedCommRing α]

/-- Claim C3 (amended): for every non-empty matrix and either `maximize`
value, the Crouse solver reports `Invalid` (`-2`) if and only if some
input entry is NaN, or is the infinity that the maximise preprocessing
turns into `-INFINITY` — that is, `-INFINITY` itself when
`maximize = false` and `+INFINITY` when `maximize = true`. -/
theorem claim_C3_invalid_iff (nr nc : ℕ) (cost : ℕ → FVal α) (maximize : Bool)
    (h1 : nr ≠ 0) (h2 : nc ≠ 0) :
    ((solve_rectangular_linear_assignment nr nc cost maximize).status = -2) ↔
      ∃ i, i < nr ∧ ∃ j, j < nc ∧ badInput maximize (cost (i * nc + j)) := by
  rw [status_invalid_iff_hasBad nr nc cost maximize h1 h2, hasBad_iff]
  simp only [workEntry_isBad_iff]
  by_cases h : nc < nr
  · simp only [if_pos h]
    rw [exists_lt_mul_iff]
    constructor
    · rintro ⟨a, ha, b, hb, hP⟩
      refine ⟨b, hb, a, ha, ?_⟩
      rwa [addMulMod a b nr hb, addMulDiv a b nr hb] at hP
    · rintro ⟨i, hi, j, hj, hP⟩
      refine ⟨j, hj, i, hi, ?_⟩
      rw [addMulMod j i nr hi, addMulDiv j i nr hi]
      exact hP
  · simp only [if_neg h]
    rw [exists_lt_mul_iff]

/-- Witness for claim C3's theorem at the concrete input: a `1x1` matrix
whose entry is `-INFINITY`, minimised. -/
theorem claim_C3_witness :
    (1 : ℕ) ≠ 0 ∧
    (((solve_rectangular_linear_assignment 1 1 (fun _ => (FVal.ninf : FVal ℤ))
        false).status = -2) ↔
      ∃ i, i < 1 ∧ ∃ j, j < 1 ∧
        badInput false ((fun _ => (FVal.ninf : FVal ℤ)) (i * 1 + j))) :=
  ⟨by decide,
    claim_C3_invalid_iff 1 1 (fun _ => FVal.ninf) false (by decide) (by decide)⟩

/-- Claim C7: calling the Crouse solver with `maximize = true` returns
exactly the same status and writes as calling it on the entrywise-negated
matrix with `maximize = false`. -/
theorem claim_C7_negation_equivalence (nr nc : ℕ) (cost : ℕ → FVal α) :
    solve_rectangular_linear_assignment nr nc cost true =
      solve_rectangular_linear_assignment nr nc (fun k => (cost k).neg) false := by
  simp only [solve_rectangular_linear_assignment]
  rw [workEntry_neg]

/-- Claim C8: whenever the Crouse solver returns a status other than `0`
(`Ok`), the caller's output buffers are not written at all. -/
theorem claim_C8_no_writes_on_failure (nr nc : ℕ) (cost : ℕ → FVal α) (maximize : Bool)
    (h : (solve_rectangular_linear_assignment nr nc cost maximize).status ≠ 0) :
    (solve_rectangular_linear_assignment nr nc cost maximize).writes = none := by
  rcases solve_out_cases nr nc cost maximize with h0 | ⟨ab, h0⟩ | h0 | h0 <;>
    rw [h0] <;> first | rfl | (exfalso; rw [h0] at h; exact h rfl)

/-- Witness for claim C8's theorem at a concrete failing input: a `1x1`
NaN matrix is rejected with `Invalid` and nothing is written. -/
theorem claim_C8_witness :
    (solve_rectangular_linear_assignment 1 1 (fun _ => (FVal.nan : FVal ℤ))
      false).status ≠ 0 ∧
    (solve_rectangular_linear_assignment 1 1 (fun _ => (FVal.nan : FVal ℤ))
      false).writes = none :=
  ⟨by decide, claim_C8_no_writes_on_failure 1 1 _ false (by decide)⟩

/-- Claim C9 (amended): the Jonker-Volgenant entry point forwards to
`rlap` with the boolean `false`, and `rlap` computes the same value for
either boolean — that parameter is the `verbose` flag, not a maximise
flag; the solver always minimises. -/
theorem claim_C9_no_maximize_flag (fuel inputDims outputDims : ℕ)
    (cost : ℕ → α) (v0 : List α) (b : Bool) :
    solve_lap fuel inputDims outputDims cost v0 =
      rlap fuel inputDims outputDims cost b v0 := rfl

/-- Claim C10: with an empty dimension the Crouse solver returns `Ok`
(`0`) immediately, writing nothing; the result is the same constant for
every cost buffer, so no entry — NaN or otherwise — is ever read or
rejected. -/
theorem claim_C10_trivial_empty (nr nc : ℕ) (cost : ℕ → FVal α) (maximize : Bool)
    (h : nr = 0 ∨ nc = 0) :
    solve_rectangular_linear_assignment nr nc cost maximize = ⟨0, none⟩ := by
  unfold solve_rectangular_linear_assignment
  rw [if_pos h]

/-- Witness for claim C10's theorem at a concrete input: `nr = 0` with a
NaN-filled buffer and `maximize = true`. -/
theorem claim_C10_witness :
    ((0 : ℕ) = 0 ∨ (3 : ℕ) = 0) ∧
    solve_rectangular_linear_assignment 0 3 (fun _ => (FVal.nan : FVal ℤ)) true =
      ⟨0, none⟩ :=
  ⟨Or.inl rfl, claim_C10_trivial_empty 0 3 _ true (Or.inl rfl)⟩

/-- Claim C6 (amended): for every `n ≥ 1` and every constant `c`, the
Crouse solver on the constant `n x n` matrix with minimisation returns
`Ok` and writes the identity assignment `a[i] = i`, `b[i] = i`; the
descending fill of `remaining` and the prefer-unassigned tie-break pin
this down.  (The Jonker-Volgenant solver does not share this property;
see the counterexample.) -/
theorem claim_C6_crouse_identity (n : ℕ) (c : α) (hn : 1 ≤ n) :
    solve_rectangular_linear_assignment n n (fun _ => FVal.fin c) false =
      ⟨0, some (idWrites n, idWrites n)⟩ := by
  have hwork : workEntry n n (fun _ => FVal.fin c) false = fun _ => FVal.fin c := by
    funext k
    simp [workEntry, lt_irrefl]
  simp only [solve_rectangular_linear_assignment, hwork]
  rw [if_neg (show ¬(n = 0 ∨ n = 0) by omega)]
  simp only [ite_self, if_neg (lt_irrefl n)]
  rw [if_neg (show ¬(hasBad (n * n) (fun _ => (FVal.fin c : FVal α)) = true) by
    simp [hasBad, FVal.isBad])]
  obtain ⟨st', hst, hcol⟩ := solveLoop_const n c n 0 (List.replicate n (-1 : ℤ))
    (by omega) (by omega) (by simp)
  rw [uConst_zero, asgn_zero, ← List.range_eq_range'] at hst
  rw [show (fun k => ((FVal.fin c : FVal α)).toE) = (fun _ => (some c : EV α)) from rfl,
    hst]
  dsimp only
  congr 1
  congr 1
  refine congrArg₂ Prod.mk rfl ?_
  rw [hcol]
  refine List.map_congr_left (fun i hi => ?_)
  have hin : i < n := List.mem_range.1 hi
  rw [getI_asgn n n i hin, if_pos hin]

/-- Witness for claim C6's theorem at the concrete input `n = 3`,
`c = 7`. -/
theorem claim_C6_witness :
    (1 : ℕ) ≤ 3 ∧
    solve_rectangular_linear_assignment 3 3 (fun _ => (FVal.fin (7 : ℤ))) false =
      ⟨0, some (idWrites 3, idWrites 3)⟩ :=
  ⟨by decide, claim_C6_crouse_identity 3 7 (by decide)⟩

set_option maxRecDepth 100000 in
/-- Instance evidence towards claim C5 at the spec's concrete matrix: the
duals recovered by the Jonker-Volgenant solver and the duals maintained by
the Crouse solver both certify optimality there — every pair has
non-negative reduced cost and every matched pair has reduced cost zero.
(The general statement, over all matrices, is not settled in this
development.) -/
theorem dual_certificates_on_c2 :
    (∀ r ∈ (rlap 100 3 3 c2cost false (List.replicate 3 0)).toList,
      (∀ i ∈ List.range 3, ∀ j ∈ List.range 3,
        c2cost (i * 3 + j) ≥ getQ r.2.2.2.1 i + getQ r.2.2.2.2 j) ∧
      (∀ i ∈ List.range 3,
        c2cost (i * 3 + (getI r.2.1 i).toNat) =
          getQ r.2.2.2.1 i + getQ r.2.2.2.2 ((getI r.2.1 i).toNat))) ∧
    (∀ st ∈ (solveLoop 3 3 (fun k => (c2fval k).toE) (List.range 3)
        ⟨List.replicate 3 0, List.replicate 3 0, List.replicate 3 (-1),
          List.replicate 3 (-1), List.replicate 3 (-1)⟩).toList,
      (∀ i ∈ List.range 3, ∀ j ∈ List.range 3,
        c2cost (i * 3 + j) ≥ getQ st.u i + getQ st.v j) ∧
      (∀ i ∈ List.range 3,
        c2cost (i * 3 + (getI st.col4row i).toNat) =
          getQ st.u i + getQ st.v ((getI st.col4row i).toNat))) := by
  decide

end ClaimTheorems

end ASDLap
